import Mathlib

/-!
Shallow embedding of the sparse-Merkle-tree core of the repository:

* `maphasher.go` — the domain-separated `MapHasher` (leaf / children / empty
  hashes and the precomputed null-hash ladder);
* the `merkle` package's HStar2 engine (`HStar2Root`, `HStar2Nodes`,
  `hStar2b`) with its getter/setter callbacks, and `PaddedBytes`.

Bytes are modelled as `List Nat` (each entry a byte value).  The underlying
cryptographic hash (`crypto.SHA256` in the source) is an abstract parameter
`hashFn : Bytes → Bytes`; everything the source does around it (domain
prefixes, ladder construction, recursion) is embedded concretely.  Go panics
are modelled as `none` / dedicated error constructors; Go `error` results
from caller callbacks are an abstract type `ε`.  The engine's calls to the
caller-supplied callbacks and its hash operations are recorded in a trace so
that claims about which arguments the callbacks receive can be stated.
-/

namespace Trillian

abbrev Bytes := List Nat

/-- Helper for `natBytes`, structurally recursive on a fuel argument (the
fuel always suffices because dividing a positive number by 256 decreases
it). -/
def natBytesF : Nat → Nat → Bytes
  | _, 0 => []
  | 0, _ + 1 => []
  | fuel + 1, n + 1 => natBytesF fuel ((n + 1) / 256) ++ [(n + 1) % 256]

/-- Big-endian minimal byte encoding of a natural number, as `big.Int.Bytes`
returns it (the empty slice for `0`, no leading zero bytes otherwise). -/
def natBytes (n : Nat) : Bytes := natBytesF n n

lemma natBytesF_congr : ∀ fuel₁ fuel₂ n, n ≤ fuel₁ → n ≤ fuel₂ →
    natBytesF fuel₁ n = natBytesF fuel₂ n := by
  intro fuel₁
  induction fuel₁ with
  | zero =>
    intro fuel₂ n h₁ _
    interval_cases n
    cases fuel₂ <;> rfl
  | succ fuel ih =>
    intro fuel₂ n h₁ h₂
    match n, fuel₂ with
    | 0, f₂ => cases f₂ <;> rfl
    | k + 1, f₂ + 1 =>
      show natBytesF fuel ((k + 1) / 256) ++ _ = natBytesF f₂ ((k + 1) / 256) ++ _
      have hd : (k + 1) / 256 ≤ k := by
        have := Nat.div_lt_self (Nat.succ_pos k) (by omega : (1 : Nat) < 256)
        omega
      rw [ih f₂ ((k + 1) / 256) (by omega) (by omega)]

/-- The recursive characterization of `natBytes`. -/
lemma natBytes_eq (n : Nat) :
    natBytes n = if n = 0 then [] else natBytes (n / 256) ++ [n % 256] := by
  match n with
  | 0 => rfl
  | k + 1 =>
    show natBytesF (k + 1) (k + 1) = _
    rw [if_neg (Nat.succ_ne_zero k)]
    show natBytesF k ((k + 1) / 256) ++ _ = _
    have hd : (k + 1) / 256 ≤ k := by
      have := Nat.div_lt_self (Nat.succ_pos k) (by omega : (1 : Nat) < 256)
      omega
    rw [natBytesF_congr k ((k + 1) / 256) ((k + 1) / 256) hd le_rfl]
    rfl

/-- Big-endian decoding of a byte string to a natural number, as
`big.Int.SetBytes` does. -/
def bytesToNat (bs : Bytes) : Nat :=
  bs.foldl (fun a b => a * 256 + b) 0

/-- `PaddedBytes(i, size)` from the source: take the minimal big-endian
encoding `b := i.Bytes()`, allocate `size` zero bytes, and copy `b` into the
tail starting at `padBytes := size − len(b)`.  When `padBytes` is negative the
Go expression `ret[padBytes:]` panics (negative slice bound); the panic is
modelled as `none`. -/
def PaddedBytes (i : Nat) (size : Nat) : Option Bytes :=
  let b := natBytes i
  let padBytes : Int := (size : Int) - b.length
  if padBytes < 0 then none
  else some ((List.replicate size 0).take padBytes.toNat ++ b)

/-- `HashLeaf` body: the hash of `leafHashPrefix (0x00) ‖ leaf`.  The
`treeID`, `index` and `height` arguments are written only to the log, never
to the hash state. -/
def hashLeafRaw (f : Bytes → Bytes) (_treeID : Int) (_index : Bytes)
    (_height : Int) (leaf : Bytes) : Bytes :=
  f (0 :: leaf)

/-- `HashChildren` body: the hash of `nodeHashPrefix (0x01) ‖ l ‖ r`. -/
def hashChildrenRaw (f : Bytes → Bytes) (l r : Bytes) : Bytes :=
  f (1 :: (l ++ r))

/-- The loop of `initNullHashes`: starting from `e = r[0]`, each following
entry is `HashChildren` of the previous entry with itself;
`nullLadder f e k` lists the `k + 1` entries `r[0] … r[k]`. -/
def nullLadder (f : Bytes → Bytes) (e : Bytes) : Nat → List Bytes
  | 0 => [e]
  | k + 1 => e :: nullLadder f (hashChildrenRaw f e e) k

/-- `initNullHashes`: `nodes = size*8 + 1` entries,
`r[0] = HashLeaf(0, nil, size*8, nil)`, `r[i] = HashChildren(r[i-1], r[i-1])`. -/
def initNullHashes (f : Bytes → Bytes) (size : Nat) : List Bytes :=
  nullLadder f (hashLeafRaw f 0 [] (size * 8) []) (size * 8)

/-- The `MapHasher` struct: the hash algorithm (its compression function and
digest size in bytes) plus the stored `nullHashes` slice. -/
structure MapHasher where
  hashFn : Bytes → Bytes
  size : Nat
  nullHashes : List Bytes

/-- `New`: constructs a `MapHasher` and eagerly populates the null-hash
ladder via `initNullHashes`. -/
def MapHasher.New (f : Bytes → Bytes) (size : Nat) : MapHasher :=
  { hashFn := f, size := size, nullHashes := initNullHashes f size }

/-- `BitLen` returns `Size() * 8`. -/
def MapHasher.BitLen (m : MapHasher) : Nat := m.size * 8

/-- `HashLeaf(treeID, index, height, leaf)`. -/
def MapHasher.HashLeaf (m : MapHasher) (treeID : Int) (index : Bytes)
    (height : Int) (leaf : Bytes) : Bytes :=
  hashLeafRaw m.hashFn treeID index height leaf

/-- `HashChildren(l, r)`. -/
def MapHasher.HashChildren (m : MapHasher) (l r : Bytes) : Bytes :=
  hashChildrenRaw m.hashFn l r

/-- `HashEmpty(treeID, index, height)`: panics (modelled as `none`) when
`height < 0 || height >= len(m.nullHashes)`, otherwise returns
`m.nullHashes[height]`.  `treeID` and `index` are used only in the log line. -/
def MapHasher.HashEmpty (m : MapHasher) (_treeID : Int) (_index : Bytes)
    (height : Int) : Option Bytes :=
  if height < 0 ∨ (m.nullHashes.length : Int) ≤ height then none
  else some (m.nullHashes.getD height.toNat [])

/-- `HStar2LeafHash`: a leaf of the sparse tree, `(Index, LeafHash)`.
Indices are unbounded non-negative integers (`big.Int` built from bytes in
the source), modelled as `Nat`. -/
structure HStar2LeafHash where
  Index : Nat
  LeafHash : Bytes
deriving DecidableEq

/-- Insertion step used to model `sort.Sort(ByIndex{values})`: place `v`
before the first element whose `Index` is not smaller. -/
def insertByIndex (v : HStar2LeafHash) : List HStar2LeafHash → List HStar2LeafHash
  | [] => [v]
  | w :: ws => if v.Index ≤ w.Index then v :: w :: ws else w :: insertByIndex v ws

/-- Model of `sort.Sort(ByIndex{values})` by its contract: the values slice,
reordered into ascending order of `Index` (`ByIndex.Less` compares indices);
the elements themselves are untouched. -/
def sortByIndex : List HStar2LeafHash → List HStar2LeafHash
  | [] => []
  | v :: vs => insertByIndex v (sortByIndex vs)

/-- The engine's error values.  `ε` is the (opaque) type of errors the
caller-supplied callbacks can return; engine-generated errors get their own
constructors.  `emptyOutOfRange` and `padPanic` model the Go panics raised
inside `HashEmpty` resp. `PaddedBytes`. -/
inductive HErr (ε : Type) where
  | negativeTreeLevelOffset
  | baseCaseArity (got : Nat)
  | emptyOutOfRange (height : Int)
  | padPanic
  | callback (e : ε)
deriving DecidableEq

/-- One observable action of the engine, recorded in a trace:
`getEv n level index` — at local recursion height `n` the engine invoked its
getter, which handed the caller's callback the level `level`;
`setEv` — likewise for the setter (`h` is the hash passed);
`emptyEv n absDepth index` — the getter fell through to `HashEmpty` at
absolute depth `absDepth`;
`childrenEv l r` — the engine computed `HashChildren(l, r)`. -/
inductive Event where
  | getEv (n : Nat) (level : Int) (index : Nat)
  | setEv (n : Nat) (level : Int) (index : Nat) (h : Bytes)
  | emptyEv (n : Nat) (absDepth : Int) (index : Nat)
  | childrenEv (l r : Bytes)
deriving DecidableEq

/-- Outcome of a (possibly effectful) computation: the trace of events it
performed, paired with its result or error. -/
abbrev Out (ε : Type) (α : Type) := List Event × Except (HErr ε) α

/-- `hStar2b(n, values, offset, get, set)` — the recursive core, verbatim
from the source:
base case `n == 0` (empty → `get`; singleton → its `LeafHash`; otherwise the
`"len(values): %d, want 1"` error); empty `values` → `get(n, offset)`;
otherwise `split = offset + 2^(n-1)`, partition at
`sort.Search(len(values), values[i].Index ≥ split)` — the first index whose
`Index` reaches `split` (the slice is sorted, so the predicate is monotone
and `sort.Search` returns exactly that first index, `List.findIdx` here) —
recurse on the two halves, combine with `HashChildren`, call `set` and
return the combined hash.  Note the source ignores the value returned by
`set` (`set(n, offset, h)` on its own line), so only `set`'s trace survives;
its error, if any, is discarded. -/
def hStar2b (m : MapHasher) (get : Nat → Nat → Out ε Bytes)
    (set : Nat → Nat → Bytes → Out ε Unit) :
    Nat → List HStar2LeafHash → Nat → Out ε Bytes
  | 0, values, offset =>
    match values with
    | [] => get 0 offset
    | [v] => ([], .ok v.LeafHash)
    | v₀ :: v₁ :: vs => ([], .error (.baseCaseArity (v₀ :: v₁ :: vs).length))
  | n + 1, values, offset =>
    match values with
    | [] => get (n + 1) offset
    | v :: vs =>
      let split := offset + 2 ^ n
      let i := (v :: vs).findIdx (fun w => split ≤ w.Index)
      match hStar2b m get set n ((v :: vs).take i) offset with
      | (t₁, .error e) => (t₁, .error e)
      | (t₁, .ok lhs) =>
        match hStar2b m get set n ((v :: vs).drop i) split with
        | (t₂, .error e) => (t₁ ++ t₂, .error e)
        | (t₂, .ok rhs) =>
          let h := m.HashChildren lhs rhs
          (t₁ ++ t₂ ++ [.childrenEv lhs rhs] ++ (set (n + 1) offset h).1, .ok h)

/-- The getter closure `HStar2Root` passes to `hStar2b`: return
`HashEmpty(treeID, PaddedBytes(index, Size()), depth)` (never an error in Go;
the two possible panics inside are modelled as errors). -/
def rootGet (m : MapHasher) (treeID : Int) (depth : Nat) (index : Nat) :
    Out ε Bytes :=
  match PaddedBytes index m.size with
  | none => ([], .error .padPanic)
  | some pb =>
    match m.HashEmpty treeID pb (depth : Int) with
    | none => ([.emptyEv depth (depth : Int) index], .error (.emptyOutOfRange (depth : Int)))
    | some h => ([.emptyEv depth (depth : Int) index], .ok h)

/-- The setter closure `HStar2Root` passes to `hStar2b`:
`func(int, *big.Int, []byte) error { return nil }`. -/
def rootSet (_depth : Nat) (_index : Nat) (_h : Bytes) : Out ε Unit :=
  ([], .ok ())

/-- `HStar2Root(n, values)`: sort the values by index, then run the core at
height `n` with zero offset, the `HashEmpty`-backed getter and the no-op
setter. -/
def HStar2Root (m : MapHasher) (treeID : Int) (n : Nat)
    (values : List HStar2LeafHash) : Out ε Bytes :=
  hStar2b m (rootGet m treeID) rootSet n (sortByIndex values) 0

/-- The getter closure `HStar2Nodes` passes to `hStar2b`: call the caller's
`get(treeDepth − depth, index)`; propagate its error; use its hash if
non-nil; otherwise fall back to
`HashEmpty(treeID, PaddedBytes(index, Size()), depth + treeLevelOffset)`. -/
def nodesGet (m : MapHasher) (treeID : Int) (treeDepth : Nat) (tlo : Int)
    (cget : Int → Nat → Except ε (Option Bytes)) (depth : Nat) (index : Nat) :
    Out ε Bytes :=
  let level : Int := (treeDepth : Int) - depth
  match cget level index with
  | .error e => ([.getEv depth level index], .error (.callback e))
  | .ok (some h) => ([.getEv depth level index], .ok h)
  | .ok none =>
    match PaddedBytes index m.size with
    | none => ([.getEv depth level index], .error .padPanic)
    | some pb =>
      match m.HashEmpty treeID pb ((depth : Int) + tlo) with
      | none => ([.getEv depth level index, .emptyEv depth ((depth : Int) + tlo) index],
                 .error (.emptyOutOfRange ((depth : Int) + tlo)))
      | some h => ([.getEv depth level index, .emptyEv depth ((depth : Int) + tlo) index],
                   .ok h)

/-- The setter closure `HStar2Nodes` passes to `hStar2b`:
`return set(treeDepth − depth, index, hash)`. -/
def nodesSet (treeDepth : Nat) (cset : Int → Nat → Bytes → Except ε Unit)
    (depth : Nat) (index : Nat) (h : Bytes) : Out ε Unit :=
  let level : Int := (treeDepth : Int) - depth
  match cset level index h with
  | .error e => ([.setEv depth level index h], .error (.callback e))
  | .ok _ => ([.setEv depth level index h], .ok ())

/-- `HStar2Nodes(index, depth, subtreeDepth, values, get, set)`:
`treeDepth := subtreeDepth`; `treeLevelOffset := BitLen() − depth −
subtreeDepth`; fail with `ErrNegativeTreeLevelOffset` when negative (before
sorting and before any callback or hash work); otherwise sort the values and
run the core from `offset = SetBytes(index)` with the wrapped callbacks. -/
def HStar2Nodes (m : MapHasher) (treeID : Int) (index : Bytes)
    (depth subtreeDepth : Nat) (values : List HStar2LeafHash)
    (cget : Int → Nat → Except ε (Option Bytes))
    (cset : Int → Nat → Bytes → Except ε Unit) : Out ε Bytes :=
  let treeDepth := subtreeDepth
  let tlo : Int := (m.BitLen : Int) - depth - subtreeDepth
  if tlo < 0 then ([], .error .negativeTreeLevelOffset)
  else
    hStar2b m (nodesGet m treeID treeDepth tlo cget) (nodesSet treeDepth cset)
      treeDepth (sortByIndex values) (bytesToNat index)

section Ladder

variable (f : Bytes → Bytes)

lemma nullLadder_length (k : Nat) : ∀ e, (nullLadder f e k).length = k + 1 := by
  induction k with
  | zero => intro e; rfl
  | succ k ih => intro e; simp [nullLadder, ih]

lemma nullLadder_getD_zero (k : Nat) (e : Bytes) :
    (nullLadder f e k).getD 0 [] = e := by
  cases k <;> rfl

lemma nullLadder_getD_succ (k : Nat) : ∀ e j, j < k →
    (nullLadder f e k).getD (j + 1) [] =
      hashChildrenRaw f ((nullLadder f e k).getD j []) ((nullLadder f e k).getD j []) := by
  induction k with
  | zero => intro e j hj; omega
  | succ k ih =>
    intro e j hj
    match j with
    | 0 =>
      show (nullLadder f (hashChildrenRaw f e e) k).getD 0 [] = _
      rw [nullLadder_getD_zero, nullLadder_getD_zero]
    | j + 1 =>
      show (nullLadder f (hashChildrenRaw f e e) k).getD (j + 1) [] = _
      exact ih (hashChildrenRaw f e e) j (by omega)

end Ladder

/-- A small concrete hash function used to instantiate witnesses: digest is
two bytes, the input's length and byte sum. -/
def tHash : Bytes → Bytes := fun bs => [bs.length % 256, bs.foldl (fun a b => a + b) 0 % 256]

/-- A concrete hasher for witnesses: `size = 1`, so `BitLen = 8` and the
null-hash ladder has 9 entries; small enough for kernel evaluation. -/
def tMap : MapHasher := MapHasher.New tHash 1

/-- C5: the null-hash ladder of a constructed `MapHasher` has `BitLen + 1`
entries, starts at the hash of an empty leaf, each later entry is
`HashChildren` of the previous one with itself, it is populated at
construction (`New` stores `initNullHashes`), `HashEmpty` returns entry `k`
for every `k` in `[0, BitLen]`, and fails fatally (panic, modelled `none`)
for every height outside `[0, BitLen]`. -/
theorem claim_C5 (f : Bytes → Bytes) (size : Nat) (t : Int) (idx : Bytes) :
    (MapHasher.New f size).nullHashes.length = (MapHasher.New f size).BitLen + 1 ∧
    (MapHasher.New f size).nullHashes.getD 0 [] =
      (MapHasher.New f size).HashLeaf 0 [] ((MapHasher.New f size).BitLen : Int) [] ∧
    (∀ k : Nat, 1 ≤ k → k ≤ (MapHasher.New f size).BitLen →
      (MapHasher.New f size).nullHashes.getD k [] =
        (MapHasher.New f size).HashChildren
          ((MapHasher.New f size).nullHashes.getD (k - 1) [])
          ((MapHasher.New f size).nullHashes.getD (k - 1) [])) ∧
    (∀ k : Nat, k ≤ (MapHasher.New f size).BitLen →
      (MapHasher.New f size).HashEmpty t idx (k : Int) =
        some ((MapHasher.New f size).nullHashes.getD k [])) ∧
    (∀ h : Int, h < 0 ∨ ((MapHasher.New f size).BitLen : Int) < h →
      (MapHasher.New f size).HashEmpty t idx h = none) := by
  have hlen : (MapHasher.New f size).nullHashes.length = size * 8 + 1 :=
    nullLadder_length f (size * 8) _
  refine ⟨hlen, ?_, ?_, ?_, ?_⟩
  · exact nullLadder_getD_zero f (size * 8) _
  · intro k hk1 hk2
    obtain ⟨j, rfl⟩ : ∃ j, k = j + 1 := ⟨k - 1, by omega⟩
    simpa using nullLadder_getD_succ f (size * 8) _ j
      (by simpa [MapHasher.BitLen, MapHasher.New] using hk2)
  · intro k hk
    have hk' : k < (MapHasher.New f size).nullHashes.length := by
      rw [hlen]
      have hb : (MapHasher.New f size).BitLen = size * 8 := rfl
      rw [hb] at hk
      omega
    simp only [MapHasher.HashEmpty, Int.toNat_ofNat]
    rw [if_neg]
    push_neg
    exact ⟨by positivity, by exact_mod_cast hk'⟩
  · intro h hh
    simp only [MapHasher.HashEmpty]
    rw [if_pos]
    rcases hh with hh | hh
    · exact Or.inl hh
    · right
      rw [hlen]
      have hb : (MapHasher.New f size).BitLen = size * 8 := rfl
      rw [hb] at hh
      omega

/-- C5 witness: concrete instantiation with `tHash`, digest size 1. -/
theorem claim_C5_witness :
    (MapHasher.New tHash 1).HashEmpty 0 [] 8 =
      some ((MapHasher.New tHash 1).nullHashes.getD 8 []) ∧
    (MapHasher.New tHash 1).HashEmpty 0 [] 9 = none ∧
    (MapHasher.New tHash 1).nullHashes.getD 3 [] =
      (MapHasher.New tHash 1).HashChildren
        ((MapHasher.New tHash 1).nullHashes.getD 2 [])
        ((MapHasher.New tHash 1).nullHashes.getD 2 []) := by
  have h := claim_C5 tHash 1 0 []
  exact ⟨h.2.2.2.1 8 (by decide), h.2.2.2.2 9 (by decide),
    h.2.2.1 3 (by decide) (by decide)⟩

/-- C7: `HashLeaf` hashes exactly `0x00 ‖ leaf` — the `treeID`, `index` and
`height` arguments do not influence the digest — and `HashChildren` hashes
exactly `0x01 ‖ l ‖ r`. -/
theorem claim_C7 (m : MapHasher) (t₁ t₂ : Int) (i₁ i₂ : Bytes) (h₁ h₂ : Int)
    (leaf l r : Bytes) :
    m.HashLeaf t₁ i₁ h₁ leaf = m.hashFn (0 :: leaf) ∧
    m.HashLeaf t₁ i₁ h₁ leaf = m.HashLeaf t₂ i₂ h₂ leaf ∧
    m.HashChildren l r = m.hashFn (1 :: (l ++ r)) :=
  ⟨rfl, rfl, rfl⟩

section Padded

lemma foldl_zero_replicate (k : Nat) :
    List.foldl (fun a b => a * 256 + b) 0 (List.replicate k 0) = 0 := by
  induction k with
  | zero => rfl
  | succ k ih => simpa [List.replicate_succ] using ih

lemma bytesToNat_replicate_append (k : Nat) (bs : Bytes) :
    bytesToNat (List.replicate k 0 ++ bs) = bytesToNat bs := by
  simp [bytesToNat, List.foldl_append, foldl_zero_replicate]

lemma bytesToNat_natBytes (i : Nat) : bytesToNat (natBytes i) = i := by
  induction i using Nat.strong_induction_on with
  | _ i ih =>
    rw [natBytes_eq]
    split
    · simp [bytesToNat]
      omega
    · rename_i h
      have hlt : i / 256 < i := Nat.div_lt_self (Nat.pos_of_ne_zero h) (by omega)
      have := ih (i / 256) hlt
      simp only [bytesToNat, List.foldl_append] at this ⊢
      rw [this]
      simp only [List.foldl_cons, List.foldl_nil]
      omega

end Padded

/-- C10: when the minimal big-endian encoding of `i` fits in `size` bytes,
`PaddedBytes(i, size)` returns exactly `size` bytes — the encoding
left-padded with zero bytes, still decoding to `i` — without panicking;
when the encoding is longer than `size`, `PaddedBytes` panics on the
negative slice bound (modelled as `none`) rather than truncating. -/
theorem claim_C10 (i size : Nat) :
    bytesToNat (natBytes i) = i ∧
    ((natBytes i).length ≤ size →
      PaddedBytes i size =
        some (List.replicate (size - (natBytes i).length) 0 ++ natBytes i) ∧
      (List.replicate (size - (natBytes i).length) 0 ++ natBytes i).length = size ∧
      bytesToNat (List.replicate (size - (natBytes i).length) 0 ++ natBytes i) = i) ∧
    (size < (natBytes i).length → PaddedBytes i size = none) := by
  refine ⟨bytesToNat_natBytes i, ?_, ?_⟩
  · intro hle
    have hlen2 : (List.replicate (size - (natBytes i).length) 0 ++ natBytes i).length = size := by
      rw [List.length_append, List.length_replicate]
      omega
    refine ⟨?_, hlen2, by rw [bytesToNat_replicate_append]; exact bytesToNat_natBytes i⟩
    have htoNat : ((size : Int) - (natBytes i).length).toNat = size - (natBytes i).length := by
      omega
    simp only [PaddedBytes]
    rw [if_neg (by omega)]
    rw [htoNat, List.take_replicate, Nat.min_eq_left (Nat.sub_le size _)]
  · intro hgt
    simp only [PaddedBytes]
    rw [if_pos (by omega)]

/-- C10 witness: `1` fits in 4 bytes and pads to `[0,0,0,1]`; `2^40` needs
5 bytes and makes `PaddedBytes` panic for `size = 4`. -/
theorem claim_C10_witness :
    PaddedBytes 1 4 = some [0, 0, 0, 1] ∧ PaddedBytes (2 ^ 40) 4 = none := by
  refine ⟨?_, (claim_C10 (2 ^ 40) 4).2.2 (by decide)⟩
  have h := (claim_C10 1 4).2.1 (by decide)
  exact h.1.trans (by decide)

/-- The reference recursion `h(n, values, offset)` exactly as the
specification words it: at `n = 0` return `get(0, offset)` for no values,
`values[0].leaf_hash` for exactly one, and the arity error otherwise; for
`n > 0` with no values return `get(n, offset)`; otherwise
`split = offset + 2^(n−1)`, partition at the first index whose `Index` is
`≥ split`, recurse left with `offset` and right with `split`, combine via
`hash_children`, call `set(n, offset, combined)` and return the combined
hash. -/
def hStar2Spec (m : MapHasher) (get : Nat → Nat → Out ε Bytes)
    (set : Nat → Nat → Bytes → Out ε Unit) :
    Nat → List HStar2LeafHash → Nat → Out ε Bytes
  | 0, values, offset =>
    if values.length = 0 then get 0 offset
    else if values.length = 1 then ([], .ok (values.headD ⟨0, []⟩).LeafHash)
    else ([], .error (.baseCaseArity values.length))
  | n + 1, values, offset =>
    if values.length = 0 then get (n + 1) offset
    else
      let split := offset + 2 ^ n
      let i := values.findIdx (fun w => split ≤ w.Index)
      match hStar2Spec m get set n (values.take i) offset with
      | (t₁, .error e) => (t₁, .error e)
      | (t₁, .ok lhs) =>
        match hStar2Spec m get set n (values.drop i) split with
        | (t₂, .error e) => (t₁ ++ t₂, .error e)
        | (t₂, .ok rhs) =>
          let h := m.HashChildren lhs rhs
          (t₁ ++ t₂ ++ [.childrenEv lhs rhs] ++ (set (n + 1) offset h).1, .ok h)

/-- C3: the recursive core `hStar2b` of the source coincides with the
specification's reference definition on every input. -/
theorem claim_C3 (ε : Type) (m : MapHasher) (get : Nat → Nat → Out ε Bytes)
    (set : Nat → Nat → Bytes → Out ε Unit) (n : Nat)
    (values : List HStar2LeafHash) (offset : Nat) :
    hStar2b m get set n values offset = hStar2Spec m get set n values offset := by
  induction n generalizing values offset with
  | zero =>
    match values with
    | [] => rfl
    | [v] => rfl
    | v₀ :: v₁ :: vs => rfl
  | succ n ih =>
    match values with
    | [] => rfl
    | v :: vs =>
      simp only [hStar2b, hStar2Spec, ih]
      rw [if_neg (by simp)]

lemma nodesGet_no_negOffset (m : MapHasher) (treeID : Int) (treeDepth : Nat)
    (tlo : Int) (cget : Int → Nat → Except ε (Option Bytes)) (d i : Nat) :
    (nodesGet m treeID treeDepth tlo cget d i).2 ≠
      .error HErr.negativeTreeLevelOffset := by
  cases hc : cget ((treeDepth : Int) - (d : Int)) i with
  | error e => simp [nodesGet, hc]
  | ok o =>
    cases o with
    | some h => simp [nodesGet, hc]
    | none =>
      cases hp : PaddedBytes i m.size with
      | none => simp [nodesGet, hc, hp]
      | some pb =>
        cases he : m.HashEmpty treeID pb ((d : Int) + tlo) with
        | none => simp [nodesGet, hc, hp, he]
        | some h => simp [nodesGet, hc, hp, he]

/-- `hStar2b` can surface `ErrNegativeTreeLevelOffset` only through its
getter: with a getter that never produces it, neither does the recursion. -/
lemma hStar2b_no_negOffset (m : MapHasher) (get : Nat → Nat → Out ε Bytes)
    (set : Nat → Nat → Bytes → Out ε Unit)
    (hget : ∀ d i, (get d i).2 ≠ .error HErr.negativeTreeLevelOffset) :
    ∀ n values offset,
      (hStar2b m get set n values offset).2 ≠
        .error HErr.negativeTreeLevelOffset := by
  intro n
  induction n with
  | zero =>
    intro values offset
    match values with
    | [] => exact hget 0 offset
    | [v] => simp [hStar2b]
    | v₀ :: v₁ :: vs => simp [hStar2b]
  | succ n ih =>
    intro values offset
    match values with
    | [] => exact hget (n + 1) offset
    | v :: vs =>
      simp only [hStar2b]
      rcases hl : hStar2b m get set n
          ((v :: vs).take ((v :: vs).findIdx fun w => offset + 2 ^ n ≤ w.Index))
          offset with ⟨t₁, r₁⟩
      cases r₁ with
      | error e =>
        have := ih ((v :: vs).take ((v :: vs).findIdx fun w => offset + 2 ^ n ≤ w.Index)) offset
        rw [hl] at this
        simp only [hl]
        simpa using this
      | ok lhs =>
        simp only [hl]
        rcases hr : hStar2b m get set n
            ((v :: vs).drop ((v :: vs).findIdx fun w => offset + 2 ^ n ≤ w.Index))
            (offset + 2 ^ n) with ⟨t₂, r₂⟩
        cases r₂ with
        | error e =>
          have := ih ((v :: vs).drop ((v :: vs).findIdx fun w => offset + 2 ^ n ≤ w.Index))
            (offset + 2 ^ n)
          rw [hr] at this
          simp only [hr]
          simpa using this
        | ok rhs => simp [hr]

/-- C6: `HStar2Nodes` fails with `ErrNegativeTreeLevelOffset` exactly when
`BitLen − depth − subtreeDepth < 0`, and on that failure it performs no
callback invocation and no hash operation (its trace is empty) and returns
no hash. -/
theorem claim_C6 (ε : Type) (m : MapHasher) (treeID : Int) (index : Bytes)
    (depth subtreeDepth : Nat) (values : List HStar2LeafHash)
    (cget : Int → Nat → Except ε (Option Bytes))
    (cset : Int → Nat → Bytes → Except ε Unit) :
    ((m.BitLen : Int) - depth - subtreeDepth < 0 →
      HStar2Nodes m treeID index depth subtreeDepth values cget cset =
        (([], .error HErr.negativeTreeLevelOffset) : Out ε Bytes)) ∧
    (0 ≤ (m.BitLen : Int) - depth - subtreeDepth →
      (HStar2Nodes m treeID index depth subtreeDepth values cget cset).2 ≠
        .error HErr.negativeTreeLevelOffset) := by
  constructor
  · intro hneg
    simp only [HStar2Nodes]
    rw [if_pos hneg]
  · intro hpos
    simp only [HStar2Nodes]
    rw [if_neg (by omega)]
    exact hStar2b_no_negOffset m _ _
      (fun d i => nodesGet_no_negOffset m treeID subtreeDepth _ cget d i) _ _ _

/-- C6 witness: with the one-byte hasher (`BitLen = 8`), depth 5 and
subtree depth 4 trip the guard; depth 0 and subtree depth 0 do not. -/
theorem claim_C6_witness :
    HStar2Nodes tMap 0 [] 5 4 [] (fun _ _ => (.ok none : Except Nat (Option Bytes)))
        (fun _ _ _ => .ok ()) =
      ([], .error HErr.negativeTreeLevelOffset) ∧
    (HStar2Nodes tMap 0 [] 0 0 [] (fun _ _ => (.ok none : Except Nat (Option Bytes)))
        (fun _ _ _ => .ok ())).2 ≠ .error HErr.negativeTreeLevelOffset := by
  constructor
  · exact (claim_C6 Nat tMap 0 [] 5 4 [] _ _).1 (by decide)
  · exact (claim_C6 Nat tMap 0 [] 0 0 [] _ _).2 (by decide)

/-- The result (second component) of `hStar2b` does not depend on the
setter at all: the source discards the value `set` returns. -/
lemma hStar2b_snd_set_indep (m : MapHasher) (get : Nat → Nat → Out ε Bytes)
    (set₁ set₂ : Nat → Nat → Bytes → Out ε Unit) :
    ∀ n values offset,
      (hStar2b m get set₁ n values offset).2 =
        (hStar2b m get set₂ n values offset).2 := by
  intro n
  induction n with
  | zero =>
    intro values offset
    match values with
    | [] => rfl
    | [v] => rfl
    | v₀ :: v₁ :: vs => rfl
  | succ n ih =>
    intro values offset
    match values with
    | [] => rfl
    | v :: vs =>
      simp only [hStar2b]
      rcases hl₁ : hStar2b m get set₁ n
          ((v :: vs).take ((v :: vs).findIdx fun w => offset + 2 ^ n ≤ w.Index))
          offset with ⟨t₁, r₁⟩
      rcases hl₂ : hStar2b m get set₂ n
          ((v :: vs).take ((v :: vs).findIdx fun w => offset + 2 ^ n ≤ w.Index))
          offset with ⟨t₁', r₁'⟩
      have heq₁ : r₁ = r₁' := by
        have := ih ((v :: vs).take ((v :: vs).findIdx fun w => offset + 2 ^ n ≤ w.Index)) offset
        rw [hl₁, hl₂] at this
        exact this
      subst heq₁
      cases r₁ with
      | error e => simp [hl₁, hl₂]
      | ok lhs =>
        simp only [hl₁, hl₂]
        rcases hr₁ : hStar2b m get set₁ n
            ((v :: vs).drop ((v :: vs).findIdx fun w => offset + 2 ^ n ≤ w.Index))
            (offset + 2 ^ n) with ⟨t₂, r₂⟩
        rcases hr₂ : hStar2b m get set₂ n
            ((v :: vs).drop ((v :: vs).findIdx fun w => offset + 2 ^ n ≤ w.Index))
            (offset + 2 ^ n) with ⟨t₂', r₂'⟩
        have heq₂ : r₂ = r₂' := by
          have := ih ((v :: vs).drop ((v :: vs).findIdx fun w => offset + 2 ^ n ≤ w.Index))
            (offset + 2 ^ n)
          rw [hr₁, hr₂] at this
          exact this
        subst heq₂
        cases r₂ with
        | error e => simp
        | ok rhs => simp

/-- A `callback` error in `hStar2b`'s result can only be one its getter
produced (`P` abstracts over the property "some getter call returned this
error"). -/
lemma hStar2b_callback_from_get (m : MapHasher) (get : Nat → Nat → Out ε Bytes)
    (set : Nat → Nat → Bytes → Out ε Unit) (P : ε → Prop)
    (hget : ∀ d i e, (get d i).2 = .error (.callback e) → P e) :
    ∀ n values offset e,
      (hStar2b m get set n values offset).2 = .error (.callback e) → P e := by
  intro n
  induction n with
  | zero =>
    intro values offset e
    match values with
    | [] => exact hget 0 offset e
    | [v] => simp [hStar2b]
    | v₀ :: v₁ :: vs => simp [hStar2b]
  | succ n ih =>
    intro values offset e
    match values with
    | [] => exact hget (n + 1) offset e
    | v :: vs =>
      simp only [hStar2b]
      rcases hl : hStar2b m get set n
          ((v :: vs).take ((v :: vs).findIdx fun w => offset + 2 ^ n ≤ w.Index))
          offset with ⟨t₁, r₁⟩
      cases r₁ with
      | error e' =>
        simp only [hl]
        intro he
        apply ih ((v :: vs).take ((v :: vs).findIdx fun w => offset + 2 ^ n ≤ w.Index)) offset e
        rw [hl]
        simpa using he
      | ok lhs =>
        simp only [hl]
        rcases hr : hStar2b m get set n
            ((v :: vs).drop ((v :: vs).findIdx fun w => offset + 2 ^ n ≤ w.Index))
            (offset + 2 ^ n) with ⟨t₂, r₂⟩
        cases r₂ with
        | error e' =>
          simp only [hr]
          intro he
          apply ih ((v :: vs).drop ((v :: vs).findIdx fun w => offset + 2 ^ n ≤ w.Index))
            (offset + 2 ^ n) e
          rw [hr]
          simpa using he
        | ok rhs => simp [hr]

/-- If the trace of `hStar2b` records a getter invocation whose underlying
caller callback failed, the whole computation fails with exactly that error.
`Bad ℓ j e` abstracts "the caller's getter returns `.error e` at `(ℓ, j)`";
`hget` says the wrapped getter aborts verbatim on such a call, `hset` that
setter invocations never record getter events. -/
lemma hStar2b_get_error_aborts (m : MapHasher) (get : Nat → Nat → Out ε Bytes)
    (set : Nat → Nat → Bytes → Out ε Unit) (Bad : Int → Nat → ε → Prop)
    (hget : ∀ d i n' ℓ j e, Event.getEv n' ℓ j ∈ (get d i).1 → Bad ℓ j e →
      (get d i).2 = .error (.callback e))
    (hset : ∀ d i h n' ℓ j, Event.getEv n' ℓ j ∉ (set d i h).1) :
    ∀ n values offset n' ℓ j e,
      Event.getEv n' ℓ j ∈ (hStar2b m get set n values offset).1 → Bad ℓ j e →
      (hStar2b m get set n values offset).2 = .error (.callback e) := by
  intro n
  induction n with
  | zero =>
    intro values offset n' ℓ j e
    match values with
    | [] => exact hget 0 offset n' ℓ j e
    | [v] => simp [hStar2b]
    | v₀ :: v₁ :: vs => simp [hStar2b]
  | succ n ih =>
    intro values offset n' ℓ j e
    match values with
    | [] => exact hget (n + 1) offset n' ℓ j e
    | v :: vs =>
      simp only [hStar2b]
      rcases hl : hStar2b m get set n
          ((v :: vs).take ((v :: vs).findIdx fun w => offset + 2 ^ n ≤ w.Index))
          offset with ⟨t₁, r₁⟩
      cases r₁ with
      | error e' =>
        simp only [hl]
        intro hmem hbad
        have := ih ((v :: vs).take ((v :: vs).findIdx fun w => offset + 2 ^ n ≤ w.Index))
          offset n' ℓ j e (by rw [hl]; simpa using hmem) hbad
        rw [hl] at this
        simpa using this
      | ok lhs =>
        simp only [hl]
        rcases hr : hStar2b m get set n
            ((v :: vs).drop ((v :: vs).findIdx fun w => offset + 2 ^ n ≤ w.Index))
            (offset + 2 ^ n) with ⟨t₂, r₂⟩
        cases r₂ with
        | error e' =>
          simp only [hr]
          intro hmem hbad
          simp only [List.mem_append] at hmem
          rcases hmem with hmem | hmem
          · -- a getter event in the successful left branch would have
            -- aborted that branch, contradicting `.ok lhs`
            have := ih ((v :: vs).take ((v :: vs).findIdx fun w => offset + 2 ^ n ≤ w.Index))
              offset n' ℓ j e (by rw [hl]; simpa using hmem) hbad
            rw [hl] at this
            simp at this
          · have := ih ((v :: vs).drop ((v :: vs).findIdx fun w => offset + 2 ^ n ≤ w.Index))
              (offset + 2 ^ n) n' ℓ j e (by rw [hr]; simpa using hmem) hbad
            rw [hr] at this
            simpa using this
        | ok rhs =>
          simp only [hr]
          intro hmem hbad
          simp only [List.append_assoc, List.mem_append, List.mem_singleton] at hmem
          rcases hmem with hmem | hmem | hmem | hmem
          · have := ih ((v :: vs).take ((v :: vs).findIdx fun w => offset + 2 ^ n ≤ w.Index))
              offset n' ℓ j e (by rw [hl]; simpa using hmem) hbad
            rw [hl] at this
            simp at this
          · have := ih ((v :: vs).drop ((v :: vs).findIdx fun w => offset + 2 ^ n ≤ w.Index))
              (offset + 2 ^ n) n' ℓ j e (by rw [hr]; simpa using hmem) hbad
            rw [hr] at this
            simp at this
          · simp at hmem
          · exact absurd hmem (hset (n + 1) offset (m.HashChildren lhs rhs) n' ℓ j)

lemma nodesGet_callback (m : MapHasher) (treeID : Int) (td : Nat) (tlo : Int)
    (cget : Int → Nat → Except ε (Option Bytes)) (d i : Nat) (e : ε) :
    (nodesGet m treeID td tlo cget d i).2 = .error (.callback e) →
      cget ((td : Int) - d) i = .error e := by
  cases hc : cget ((td : Int) - (d : Int)) i with
  | error e' =>
    intro h
    simp only [nodesGet, hc] at h
    simp at h
    rw [h]
  | ok o =>
    cases o with
    | some hsh => intro h; simp [nodesGet, hc] at h
    | none =>
      cases hp : PaddedBytes i m.size with
      | none => intro h; simp [nodesGet, hc, hp] at h
      | some pb =>
        cases he : m.HashEmpty treeID pb ((d : Int) + tlo) with
        | none => intro h; simp [nodesGet, hc, hp, he] at h
        | some hsh => intro h; simp [nodesGet, hc, hp, he] at h

lemma nodesGet_error_result (m : MapHasher) (treeID : Int) (td : Nat) (tlo : Int)
    (cget : Int → Nat → Except ε (Option Bytes)) (d i : Nat) (e : ε)
    (hc : cget ((td : Int) - d) i = .error e) :
    (nodesGet m treeID td tlo cget d i).2 = .error (.callback e) := by
  simp [nodesGet, hc]

lemma nodesGet_getEv (m : MapHasher) (treeID : Int) (td : Nat) (tlo : Int)
    (cget : Int → Nat → Except ε (Option Bytes)) (d i : Nat) (n' : Nat) (ℓ : Int) (j : Nat) :
    Event.getEv n' ℓ j ∈ (nodesGet m treeID td tlo cget d i).1 →
      ℓ = (td : Int) - d ∧ j = i := by
  cases hc : cget ((td : Int) - (d : Int)) i with
  | error e' =>
    intro h
    simp only [nodesGet, hc, List.mem_singleton] at h
    cases h
    exact ⟨rfl, rfl⟩
  | ok o =>
    cases o with
    | some hsh =>
      intro h
      simp only [nodesGet, hc, List.mem_singleton] at h
      cases h
      exact ⟨rfl, rfl⟩
    | none =>
      cases hp : PaddedBytes i m.size with
      | none =>
        intro h
        simp only [nodesGet, hc, hp, List.mem_singleton] at h
        cases h
        exact ⟨rfl, rfl⟩
      | some pb =>
        cases he : m.HashEmpty treeID pb ((d : Int) + tlo) with
        | none =>
          intro h
          simp only [nodesGet, hc, hp, he, List.mem_cons, List.mem_singleton] at h
          rcases h with h | h
          · cases h; exact ⟨rfl, rfl⟩
          · simp at h
        | some hsh =>
          intro h
          simp only [nodesGet, hc, hp, he, List.mem_cons, List.mem_singleton] at h
          rcases h with h | h
          · cases h; exact ⟨rfl, rfl⟩
          · simp at h

lemma nodesSet_no_getEv (td : Nat) (cset : Int → Nat → Bytes → Except ε Unit)
    (d i : Nat) (h : Bytes) (n' : Nat) (ℓ : Int) (j : Nat) :
    Event.getEv n' ℓ j ∉ (nodesSet td cset d i h).1 := by
  cases hc : cset ((td : Int) - (d : Int)) i h with
  | error e => simp [nodesSet, hc]
  | ok u => simp [nodesSet, hc]

/-- C1 (amended): the result of `HStar2Nodes` never depends on the setter
(in particular setter errors are discarded); every `callback` error in the
result is verbatim an error returned by the caller's getter; and whenever
the engine invokes the getter at a point where the caller's callback
errors, the call aborts with exactly that error. -/
theorem claim_C1 (ε : Type) (m : MapHasher) (treeID : Int) (index : Bytes)
    (depth subtreeDepth : Nat) (values : List HStar2LeafHash)
    (cget : Int → Nat → Except ε (Option Bytes))
    (cset₁ cset₂ : Int → Nat → Bytes → Except ε Unit) :
    (HStar2Nodes m treeID index depth subtreeDepth values cget cset₁).2 =
      (HStar2Nodes m treeID index depth subtreeDepth values cget cset₂).2 ∧
    (∀ e, (HStar2Nodes m treeID index depth subtreeDepth values cget cset₁).2 =
        .error (.callback e) → ∃ ℓ j, cget ℓ j = .error e) ∧
    (∀ n' ℓ j e,
      Event.getEv n' ℓ j ∈
        (HStar2Nodes m treeID index depth subtreeDepth values cget cset₁).1 →
      cget ℓ j = .error e →
      (HStar2Nodes m treeID index depth subtreeDepth values cget cset₁).2 =
        .error (.callback e)) := by
  by_cases hneg : ((m.BitLen : Int) - depth - subtreeDepth) < 0
  · refine ⟨by simp [HStar2Nodes, hneg], ?_, ?_⟩
    · intro e h
      simp [HStar2Nodes, hneg] at h
    · intro n' ℓ j e hmem
      simp [HStar2Nodes, hneg] at hmem
  · simp only [HStar2Nodes, if_neg hneg]
    refine ⟨hStar2b_snd_set_indep m _ _ _ _ _ _, ?_, ?_⟩
    · intro e h
      exact hStar2b_callback_from_get m _ _ (fun e => ∃ ℓ j, cget ℓ j = .error e)
        (fun d i e' hh =>
          ⟨(subtreeDepth : Int) - d, i, nodesGet_callback m treeID _ _ cget d i e' hh⟩)
        _ _ _ e h
    · intro n' ℓ j e hmem hc
      exact hStar2b_get_error_aborts m _ _ (fun ℓ j e => cget ℓ j = .error e)
        (fun d i n'' ℓ' j' e' hmem' hbad' => by
          obtain ⟨hℓ, hj⟩ := nodesGet_getEv m treeID _ _ cget d i n'' ℓ' j' hmem'
          rw [hℓ, hj] at hbad'
          exact nodesGet_error_result m treeID _ _ cget d i e' hbad')
        (fun d i h n'' ℓ' j' => nodesSet_no_getEv _ cset₁ d i h n'' ℓ' j')
        _ _ _ n' ℓ j e hmem hc

/-- C1 counterexample: a run in which the setter is invoked (the trace
records the `setEv`) and returns the error `42`, yet `HStar2Nodes` returns
a successful hash — the claim that setter errors propagate as the error
result of the call is false. -/
theorem claim_C1_counterexample :
    (HStar2Nodes tMap 0 [] 0 1 [⟨0, [10]⟩, ⟨1, [11]⟩]
        (fun _ _ => (.ok none : Except Nat (Option Bytes)))
        (fun _ _ _ => .error 42)).2 = .ok [3, 22] ∧
    Event.setEv 1 0 0 [3, 22] ∈
      (HStar2Nodes tMap 0 [] 0 1 [⟨0, [10]⟩, ⟨1, [11]⟩]
        (fun _ _ => (.ok none : Except Nat (Option Bytes)))
        (fun _ _ _ => .error 42)).1 := by
  constructor
  · rfl
  · decide

/-- C1 witness: a getter that fails with error `7` makes the call fail with
exactly `.callback 7` (instantiating the amended theorem's third part). -/
theorem claim_C1_witness :
    (HStar2Nodes tMap 0 [] 0 0 []
        (fun _ _ => (.error 7 : Except Nat (Option Bytes)))
        (fun _ _ _ => .ok ())).2 = .error (.callback 7) := by
  refine (claim_C1 Nat tMap 0 [] 0 0 [] _ _ (fun _ _ _ => .ok ())).2.2 0 0 0 7 ?_ rfl
  decide

/-- Every event in `hStar2b`'s trace satisfies any predicate that holds for
all events its getter and setter emit and for all `childrenEv` events. -/
lemma hStar2b_trace_pred (m : MapHasher) (get : Nat → Nat → Out ε Bytes)
    (set : Nat → Nat → Bytes → Out ε Unit) (P : Event → Prop)
    (hget : ∀ d i, ∀ ev ∈ (get d i).1, P ev)
    (hset : ∀ d i h, ∀ ev ∈ (set d i h).1, P ev)
    (hchild : ∀ l r, P (.childrenEv l r)) :
    ∀ n values offset, ∀ ev ∈ (hStar2b m get set n values offset).1, P ev := by
  intro n
  induction n with
  | zero =>
    intro values offset ev
    match values with
    | [] => exact hget 0 offset ev
    | [v] => simp [hStar2b]
    | v₀ :: v₁ :: vs => simp [hStar2b]
  | succ n ih =>
    intro values offset ev
    match values with
    | [] => exact hget (n + 1) offset ev
    | v :: vs =>
      simp only [hStar2b]
      rcases hl : hStar2b m get set n
          ((v :: vs).take ((v :: vs).findIdx fun w => offset + 2 ^ n ≤ w.Index))
          offset with ⟨t₁, r₁⟩
      have ht₁ : ∀ ev ∈ t₁, P ev := by
        intro ev hev
        have := ih ((v :: vs).take ((v :: vs).findIdx fun w => offset + 2 ^ n ≤ w.Index))
          offset ev
        rw [hl] at this
        exact this hev
      cases r₁ with
      | error e => simp only [hl]; exact ht₁ ev
      | ok lhs =>
        simp only [hl]
        rcases hr : hStar2b m get set n
            ((v :: vs).drop ((v :: vs).findIdx fun w => offset + 2 ^ n ≤ w.Index))
            (offset + 2 ^ n) with ⟨t₂, r₂⟩
        have ht₂ : ∀ ev ∈ t₂, P ev := by
          intro ev hev
          have := ih ((v :: vs).drop ((v :: vs).findIdx fun w => offset + 2 ^ n ≤ w.Index))
            (offset + 2 ^ n) ev
          rw [hr] at this
          exact this hev
        cases r₂ with
        | error e =>
          simp only [List.mem_append]
          rintro (hev | hev)
          · exact ht₁ ev hev
          · exact ht₂ ev hev
        | ok rhs =>
          simp only [List.append_assoc, List.mem_append, List.mem_singleton]
          rintro (hev | hev | hev | hev)
          · exact ht₁ ev hev
          · exact ht₂ ev hev
          · subst hev; exact hchild lhs rhs
          · exact hset (n + 1) offset (m.HashChildren lhs rhs) ev hev

/-- C2 (amended): on every getter and setter invocation `HStar2Nodes` makes,
the level handed to the caller's callback is `subtreeDepth − n` where `n` is
the local recursion height — so level `0` denotes the subtree's root and
level `subtreeDepth` its deepest level — and every `HashEmpty` consultation
made on behalf of an empty slice of values receives absolute height
`n + (BitLen − depth − subtreeDepth)`. -/
theorem claim_C2 (ε : Type) (m : MapHasher) (treeID : Int) (index : Bytes)
    (depth subtreeDepth : Nat) (values : List HStar2LeafHash)
    (cget : Int → Nat → Except ε (Option Bytes))
    (cset : Int → Nat → Bytes → Except ε Unit) :
    ∀ ev ∈ (HStar2Nodes m treeID index depth subtreeDepth values cget cset).1,
      match ev with
      | .getEv n ℓ _ => ℓ = (subtreeDepth : Int) - n
      | .setEv n ℓ _ _ => ℓ = (subtreeDepth : Int) - n
      | .emptyEv n a _ => a = (n : Int) + ((m.BitLen : Int) - depth - subtreeDepth)
      | .childrenEv _ _ => True := by
  by_cases hneg : ((m.BitLen : Int) - depth - subtreeDepth) < 0
  · intro ev hmem
    simp [HStar2Nodes, hneg] at hmem
  · simp only [HStar2Nodes, if_neg hneg]
    apply hStar2b_trace_pred
    · intro d i ev hev
      cases hc : cget ((subtreeDepth : Int) - (d : Int)) i with
      | error e =>
        simp only [nodesGet, hc, List.mem_singleton] at hev
        subst hev; rfl
      | ok o =>
        cases o with
        | some hsh =>
          simp only [nodesGet, hc, List.mem_singleton] at hev
          subst hev; rfl
        | none =>
          cases hp : PaddedBytes i m.size with
          | none =>
            simp only [nodesGet, hc, hp, List.mem_singleton] at hev
            subst hev; rfl
          | some pb =>
            cases he : m.HashEmpty treeID pb
                ((d : Int) + ((m.BitLen : Int) - depth - subtreeDepth)) with
            | none =>
              simp only [nodesGet, hc, hp, he, List.mem_cons, List.mem_singleton] at hev
              rcases hev with hev | hev | hev
              · subst hev; rfl
              · subst hev; rfl
              · simp at hev
            | some hsh =>
              simp only [nodesGet, hc, hp, he, List.mem_cons, List.mem_singleton] at hev
              rcases hev with hev | hev | hev
              · subst hev; rfl
              · subst hev; rfl
              · simp at hev
    · intro d i h ev hev
      cases hc : cset ((subtreeDepth : Int) - (d : Int)) i h with
      | error e =>
        simp only [nodesSet, hc, List.mem_singleton] at hev
        subst hev; rfl
      | ok u =>
        simp only [nodesSet, hc, List.mem_singleton] at hev
        subst hev; rfl
    · intro l r
      trivial

/-- C2 counterexample: in a concrete run (`BitLen = 8`, subtree at depth 3
spanning 2 levels, one leaf) the getter invocation at the deepest recursion
point (`n = 0`) receives level `2 = subtreeDepth`, not `0`, and the level-`0`
invocation is the setter call at the subtree's root (`n = 2`): the value `0`
denotes the subtree's root level, not its deepest level. -/
theorem claim_C2_counterexample :
    Event.getEv 0 2 1 ∈
      (HStar2Nodes tMap 0 [] 3 2 [⟨0, [10]⟩]
        (fun _ _ => (.ok none : Except Nat (Option Bytes)))
        (fun _ _ _ => .ok ())).1 ∧
    Event.setEv 2 0 0 [5, 172] ∈
      (HStar2Nodes tMap 0 [] 3 2 [⟨0, [10]⟩]
        (fun _ _ => (.ok none : Except Nat (Option Bytes)))
        (fun _ _ _ => .ok ())).1 ∧
    ((2 : Int) ≠ 0) := by
  refine ⟨by decide, by decide, by decide⟩

/-- C2 witness: instantiating the amended theorem on the same concrete run
for the deepest getter event and an empty-hash consultation. -/
theorem claim_C2_witness :
    ((2 : Int) = (2 : Int) - (0 : Nat)) ∧
    ((3 : Int) = (0 : Nat) + ((8 : Int) - 3 - 2)) := by
  have h := claim_C2 Nat tMap 0 [] 3 2 [⟨0, [10]⟩]
    (fun _ _ => (.ok none : Except Nat (Option Bytes))) (fun _ _ _ => .ok ())
  constructor
  · have := h (Event.getEv 0 2 1) (by decide)
    simpa [tMap, MapHasher.New, MapHasher.BitLen] using this
  · have := h (Event.emptyEv 0 3 1) (by decide)
    simpa [tMap, MapHasher.New, MapHasher.BitLen] using this

/-- Ascending order of `Index` — the order `ByIndex.Less` induces. -/
def SortedByIndex (l : List HStar2LeafHash) : Prop :=
  List.Pairwise (fun a b => a.Index ≤ b.Index) l

lemma insertByIndex_perm (v : HStar2LeafHash) (l : List HStar2LeafHash) :
    (insertByIndex v l).Perm (v :: l) := by
  induction l with
  | nil => exact List.Perm.refl _
  | cons w ws ih =>
    by_cases h : v.Index ≤ w.Index
    · simp [insertByIndex, h]
    · simp only [insertByIndex, if_neg h]
      exact (ih.cons w).trans (List.Perm.swap v w ws)

lemma sortByIndex_perm (l : List HStar2LeafHash) : (sortByIndex l).Perm l := by
  induction l with
  | nil => exact List.Perm.refl _
  | cons v vs ih => exact (insertByIndex_perm v (sortByIndex vs)).trans (ih.cons v)

lemma insertByIndex_sorted (v : HStar2LeafHash) (l : List HStar2LeafHash)
    (hl : SortedByIndex l) : SortedByIndex (insertByIndex v l) := by
  induction l with
  | nil => simp [insertByIndex, SortedByIndex]
  | cons w ws ih =>
    rw [SortedByIndex, List.pairwise_cons] at hl
    by_cases h : v.Index ≤ w.Index
    · simp only [insertByIndex, if_pos h]
      rw [SortedByIndex, List.pairwise_cons]
      refine ⟨?_, List.pairwise_cons.mpr hl⟩
      intro b hb
      rcases List.mem_cons.mp hb with rfl | hb
      · exact h
      · exact le_trans h (hl.1 b hb)
    · simp only [insertByIndex, if_neg h]
      rw [SortedByIndex, List.pairwise_cons]
      refine ⟨?_, ih hl.2⟩
      intro b hb
      have := (insertByIndex_perm v ws).mem_iff.mp hb
      rcases List.mem_cons.mp this with rfl | hbws
      · omega
      · exact hl.1 b hbws

lemma sortByIndex_sorted (l : List HStar2LeafHash) :
    SortedByIndex (sortByIndex l) := by
  induction l with
  | nil => exact List.Pairwise.nil
  | cons v vs ih => exact insertByIndex_sorted v (sortByIndex vs) ih

/-- On a sorted list, the slice up to the first index reaching `split` is
exactly the elements whose `Index` is below `split`. -/
lemma take_findIdx_filter (split : Nat) :
    ∀ l : List HStar2LeafHash, SortedByIndex l →
      l.take (l.findIdx fun w => split ≤ w.Index) =
        l.filter fun w => w.Index < split := by
  intro l
  induction l with
  | nil => intro _; rfl
  | cons a l ih =>
    intro hs
    rw [SortedByIndex, List.pairwise_cons] at hs
    rw [List.findIdx_cons]
    by_cases h : split ≤ a.Index
    · rw [decide_eq_true h, cond_true, List.take_zero]
      rw [eq_comm, List.filter_eq_nil_iff]
      intro b hb
      rcases List.mem_cons.mp hb with rfl | hb
      · simp; omega
      · have := hs.1 b hb
        simp; omega
    · rw [decide_eq_false h, cond_false, List.take_succ_cons]
      rw [List.filter_cons_of_pos (by simp; omega)]
      rw [ih hs.2]

/-- On a sorted list, the slice from the first index reaching `split` is
exactly the elements whose `Index` is at least `split`. -/
lemma drop_findIdx_filter (split : Nat) :
    ∀ l : List HStar2LeafHash, SortedByIndex l →
      l.drop (l.findIdx fun w => split ≤ w.Index) =
        l.filter fun w => split ≤ w.Index := by
  intro l
  induction l with
  | nil => intro _; rfl
  | cons a l ih =>
    intro hs
    rw [SortedByIndex, List.pairwise_cons] at hs
    rw [List.findIdx_cons]
    by_cases h : split ≤ a.Index
    · rw [decide_eq_true h, cond_true, List.drop_zero]
      rw [eq_comm, List.filter_eq_self]
      intro b hb
      rcases List.mem_cons.mp hb with rfl | hb
      · simpa using h
      · have := hs.1 b hb
        simp
        omega
    · rw [decide_eq_false h, cond_false, List.drop_succ_cons]
      rw [List.filter_cons_of_neg (by simpa using h)]
      exact ih hs.2

end Trillian

namespace Trillian

/-- On sorted inputs the result of `hStar2b` depends only on the multiset of
values: two sorted permutations of each other produce the same result. -/
lemma hStar2b_perm (m : MapHasher) (get : Nat → Nat → Out ε Bytes)
    (set : Nat → Nat → Bytes → Out ε Unit) :
    ∀ n (l₁ l₂ : List HStar2LeafHash) offset, l₁.Perm l₂ →
      SortedByIndex l₁ → SortedByIndex l₂ →
      (hStar2b m get set n l₁ offset).2 = (hStar2b m get set n l₂ offset).2 := by
  intro n
  induction n with
  | zero =>
    intro l₁ l₂ offset hperm hs₁ hs₂
    match l₁, l₂, hperm.length_eq with
    | [], [], _ => rfl
    | [a], [b], _ =>
      have hab : a = b := by simpa using hperm
      rw [hab]
    | a₀ :: a₁ :: as, b₀ :: b₁ :: bs, hlen =>
      simp only [hStar2b]
      simp only [List.length_cons]
      simp at hlen
      rw [hlen]
  | succ n ih =>
    intro l₁ l₂ offset hperm hs₁ hs₂
    match l₁, l₂, hperm.length_eq with
    | [], [], _ => rfl
    | a :: as, b :: bs, _ =>
      simp only [hStar2b]
      have htake : (hStar2b m get set n
          ((a :: as).take ((a :: as).findIdx fun w => offset + 2 ^ n ≤ w.Index)) offset).2 =
          (hStar2b m get set n
          ((b :: bs).take ((b :: bs).findIdx fun w => offset + 2 ^ n ≤ w.Index)) offset).2 := by
        rw [take_findIdx_filter (offset + 2 ^ n) (a :: as) hs₁,
          take_findIdx_filter (offset + 2 ^ n) (b :: bs) hs₂]
        exact ih _ _ offset (hperm.filter _)
          (List.Pairwise.filter _ hs₁) (List.Pairwise.filter _ hs₂)
      have hdrop : (hStar2b m get set n
          ((a :: as).drop ((a :: as).findIdx fun w => offset + 2 ^ n ≤ w.Index))
          (offset + 2 ^ n)).2 =
          (hStar2b m get set n
          ((b :: bs).drop ((b :: bs).findIdx fun w => offset + 2 ^ n ≤ w.Index))
          (offset + 2 ^ n)).2 := by
        rw [drop_findIdx_filter (offset + 2 ^ n) (a :: as) hs₁,
          drop_findIdx_filter (offset + 2 ^ n) (b :: bs) hs₂]
        exact ih _ _ (offset + 2 ^ n) (hperm.filter _)
          (List.Pairwise.filter _ hs₁) (List.Pairwise.filter _ hs₂)
      rcases hl₁ : hStar2b m get set n
          ((a :: as).take ((a :: as).findIdx fun w => offset + 2 ^ n ≤ w.Index))
          offset with ⟨t₁, r₁⟩
      rcases hl₂ : hStar2b m get set n
          ((b :: bs).take ((b :: bs).findIdx fun w => offset + 2 ^ n ≤ w.Index))
          offset with ⟨t₁', r₁'⟩
      rw [hl₁, hl₂] at htake
      simp only at htake
      subst htake
      cases r₁ with
      | error e => simp [hl₁, hl₂]
      | ok lhs =>
        simp only [hl₁, hl₂]
        rcases hr₁ : hStar2b m get set n
            ((a :: as).drop ((a :: as).findIdx fun w => offset + 2 ^ n ≤ w.Index))
            (offset + 2 ^ n) with ⟨t₂, r₂⟩
        rcases hr₂ : hStar2b m get set n
            ((b :: bs).drop ((b :: bs).findIdx fun w => offset + 2 ^ n ≤ w.Index))
            (offset + 2 ^ n) with ⟨t₂', r₂'⟩
        rw [hr₁, hr₂] at hdrop
        simp only at hdrop
        subst hdrop
        cases r₂ with
        | error e => simp
        | ok rhs => simp

end Trillian

namespace Trillian

/-- C4: `HStar2Root` is deterministic and depends only on the height and the
multiset of `(Index, LeafHash)` pairs — permuted value lists give
byte-identical roots — and the configured `treeID` has no effect on the
result. -/
theorem claim_C4 (ε : Type) (m : MapHasher) (t₁ t₂ : Int) (n : Nat)
    (v₁ v₂ : List HStar2LeafHash) (hperm : v₁.Perm v₂) :
    (HStar2Root (ε := ε) m t₁ n v₁).2 = (HStar2Root (ε := ε) m t₂ n v₂).2 := by
  show (hStar2b m (rootGet m t₁) rootSet n (sortByIndex v₁) 0).2 =
    (hStar2b m (rootGet m t₂) rootSet n (sortByIndex v₂) 0).2
  have hgg : rootGet (ε := ε) m t₂ = rootGet (ε := ε) m t₁ := rfl
  rw [hgg]
  exact hStar2b_perm m _ _ n _ _ 0
    (((sortByIndex_perm v₁).trans hperm).trans (sortByIndex_perm v₂).symm)
    (sortByIndex_sorted v₁) (sortByIndex_sorted v₂)

/-- C4 witness: two leaves supplied in either order, under distinct tree ids
`0` and `5`, produce the same root. -/
theorem claim_C4_witness :
    (HStar2Root (ε := Unit) tMap 0 2 [⟨1, [170]⟩, ⟨2, [187]⟩]).2 =
      (HStar2Root (ε := Unit) tMap 5 2 [⟨2, [187]⟩, ⟨1, [170]⟩]).2 :=
  claim_C4 Unit tMap 0 5 2 _ _ (List.Perm.swap (⟨2, [187]⟩ : HStar2LeafHash) ⟨1, [170]⟩ [])

/-- C9: both entry points sort the caller's values slice in place before
recursing — the list the recursion consumes (and the caller observes
afterwards) is a permutation of the original in ascending `Index` order,
with the elements themselves untouched. -/
theorem claim_C9 (ε : Type) (m : MapHasher) (treeID : Int) (index : Bytes)
    (depth subtreeDepth n : Nat) (values : List HStar2LeafHash)
    (cget : Int → Nat → Except ε (Option Bytes))
    (cset : Int → Nat → Bytes → Except ε Unit) :
    (sortByIndex values).Perm values ∧
    SortedByIndex (sortByIndex values) ∧
    HStar2Root (ε := ε) m treeID n values =
      hStar2b m (rootGet m treeID) rootSet n (sortByIndex values) 0 ∧
    (0 ≤ (m.BitLen : Int) - depth - subtreeDepth →
      HStar2Nodes m treeID index depth subtreeDepth values cget cset =
        hStar2b m
          (nodesGet m treeID subtreeDepth ((m.BitLen : Int) - depth - subtreeDepth) cget)
          (nodesSet subtreeDepth cset) subtreeDepth (sortByIndex values)
          (bytesToNat index)) := by
  refine ⟨sortByIndex_perm values, sortByIndex_sorted values, rfl, ?_⟩
  intro hpos
  simp only [HStar2Nodes]
  rw [if_neg (by omega)]

/-- C9 witness: concrete two-leaf instantiation (`BitLen = 8`, subtree at
depth 3 of height 2). -/
theorem claim_C9_witness :
    (sortByIndex [⟨2, [5]⟩, ⟨1, [6]⟩]).Perm [⟨2, [5]⟩, ⟨1, [6]⟩] ∧
    SortedByIndex (sortByIndex [⟨2, [5]⟩, ⟨1, [6]⟩]) ∧
    HStar2Nodes tMap 0 [] 3 2 [⟨2, [5]⟩, ⟨1, [6]⟩]
        (fun _ _ => (.ok none : Except Nat (Option Bytes))) (fun _ _ _ => .ok ()) =
      hStar2b tMap
        (nodesGet tMap 0 2 ((tMap.BitLen : Int) - 3 - 2)
          (fun _ _ => (.ok none : Except Nat (Option Bytes))))
        (nodesSet 2 (fun _ _ _ => .ok ())) 2 (sortByIndex [⟨2, [5]⟩, ⟨1, [6]⟩])
        (bytesToNat []) := by
  have h := claim_C9 Nat tMap 0 [] 3 2 0 [⟨2, [5]⟩, ⟨1, [6]⟩]
    (fun _ _ => (.ok none : Except Nat (Option Bytes))) (fun _ _ _ => .ok ())
  exact ⟨h.1, h.2.1, h.2.2.2 (by decide)⟩

end Trillian

namespace Trillian

/-- MSB-first bit string of `n`, `w` bits wide (bit `w−1` of `n` first). -/
def natToBits (n : Nat) : Nat → List Bool
  | 0 => []
  | w + 1 => n.testBit w :: natToBits n w

/-- Value of an MSB-first bit string. -/
def bitsToNat (bs : List Bool) : Nat :=
  bs.foldl (fun a b => 2 * a + (if b then 1 else 0)) 0

/-- Modelled from the spec: the `NodeID` type of the storage package is not
part of the sources (only its tests are); per the spec it is a tuple
`(path, prefix_bits, path_bits)` where `path` is a bit buffer of
`8 * ceil(max_bits / 8)` bits, the first `prefix_bits` of which are
meaningful (the rest must be zero), and `path_bits` is the logical length of
the full tree path. -/
structure NodeID where
  Path : List Bool
  PrefixLenBits : Nat
  PathLenBits : Nat
deriving DecidableEq

/-- Modelled from the spec: `new_for_tree_coords(depth, index, max_bits)`
(implementation absent from the sources) fails when
`index ≥ 2^(max_bits − depth)`; otherwise `prefix_bits = max_bits − depth`
and the path holds `index` left-shifted so that its most significant bit of
that width sits at bit 0 of the buffer, with zero bits after the prefix. -/
def NewNodeIDForTreeCoords (depth index maxBits : Nat) : Option NodeID :=
  if 2 ^ (maxBits - depth) ≤ index then none
  else some
    { Path := natToBits index (maxBits - depth) ++
        List.replicate (8 * ((maxBits + 7) / 8) - (maxBits - depth)) false,
      PrefixLenBits := maxBits - depth,
      PathLenBits := maxBits }

/-- Modelled from the spec: `coord_string()` (implementation absent from the
sources) renders `"[d:<depth>, i:<index>]"` where
`depth = path_bits − prefix_bits` and `index` is decoded from the first
`prefix_bits` bits of the path. -/
def CoordString (n : NodeID) : String :=
  "[d:" ++ toString (n.PathLenBits - n.PrefixLenBits) ++ ", i:" ++
    toString (bitsToNat (n.Path.take n.PrefixLenBits)) ++ "]"

lemma natToBits_length (n : Nat) : ∀ w, (natToBits n w).length = w := by
  intro w
  induction w with
  | zero => rfl
  | succ w ih => simp [natToBits, ih]

lemma bitsToNat_foldl (bs : List Bool) : ∀ a : Nat,
    List.foldl (fun a b => 2 * a + (if b then 1 else 0)) a bs =
      a * 2 ^ bs.length + bitsToNat bs := by
  induction bs with
  | nil => intro a; simp [bitsToNat]
  | cons b bs ih =>
    intro a
    show List.foldl _ (2 * a + (if b then 1 else 0)) bs = _
    rw [ih (2 * a + (if b then 1 else 0))]
    have hbs : bitsToNat (b :: bs) =
        (if b then 1 else 0) * 2 ^ bs.length + bitsToNat bs := by
      show List.foldl _ (2 * 0 + (if b then 1 else 0)) bs = _
      rw [ih (2 * 0 + (if b then 1 else 0))]
      ring_nf
    rw [hbs]
    cases b <;> simp [List.length_cons, pow_succ] <;> ring
  
lemma bitsToNat_natToBits (n : Nat) : ∀ w, bitsToNat (natToBits n w) = n % 2 ^ w := by
  intro w
  induction w with
  | zero => simp [natToBits, bitsToNat, Nat.mod_one]
  | succ w ih =>
    have hcons : bitsToNat (natToBits n (w + 1)) =
        (if n.testBit w then 1 else 0) * 2 ^ w + bitsToNat (natToBits n w) := by
      show List.foldl _ (2 * 0 + (if n.testBit w then 1 else 0)) (natToBits n w) = _
      rw [bitsToNat_foldl, natToBits_length]
      ring_nf
    rw [hcons, ih]
    have hbit : (if n.testBit w then 1 else 0) = n / 2 ^ w % 2 := by
      rw [Nat.testBit_to_div_mod]
      rcases Nat.mod_two_eq_zero_or_one (n / 2 ^ w) with h | h <;> simp [h]
    rw [hbit, pow_succ, Nat.mod_mul]
    ring

/-- C8: for every `d ≤ max_bits` and `i < 2^(max_bits − d)`,
`NewNodeIDForTreeCoords(d, i, max_bits)` succeeds and `CoordString` of the
result is `"[d:<d>, i:<i>]"` — the round-trip inverse on all valid inputs. -/
theorem claim_C8 (d i maxBits : Nat) (hd : d ≤ maxBits)
    (hi : i < 2 ^ (maxBits - d)) :
    (NewNodeIDForTreeCoords d i maxBits).map CoordString =
      some ("[d:" ++ toString d ++ ", i:" ++ toString i ++ "]") := by
  simp only [NewNodeIDForTreeCoords]
  rw [if_neg (by omega)]
  refine congrArg some ?_
  have h1 : maxBits - (maxBits - d) = d := by omega
  have h2 : bitsToNat ((natToBits i (maxBits - d) ++
      List.replicate (8 * ((maxBits + 7) / 8) - (maxBits - d)) false).take
        (maxBits - d)) = i := by
    rw [List.take_left' (natToBits_length i (maxBits - d)), bitsToNat_natToBits]
    exact Nat.mod_eq_of_lt hi
  simp only [CoordString, h1, h2]

/-- C8 witness: the spec's concrete scenario, `(depth 2, index 4, 8 bits)`. -/
theorem claim_C8_witness :
    (NewNodeIDForTreeCoords 2 4 8).map CoordString = some "[d:2, i:4]" := by
  have h := claim_C8 2 4 8 (by decide) (by decide)
  exact h

end Trillian
